import Mathlib

/-!
Shallow embedding of the hunspell-style spell-checking engine in
`src/typo/typo.js` (the `Typo` object) of the chrome-spellcheck repository.

JavaScript strings are modelled as `List Char` (`Str`), JS objects used as
string-keyed maps as insertion-ordered association lists, and JS runtime
exceptions (`TypeError` for property access on `null`/`undefined`,
`ReferenceError` for reading an undeclared identifier, and the engine's own
`throw "Dictionary not loaded."`) as an `Except JsError` result.

Case mapping (`toUpperCase`/`toLowerCase`) is modelled on the ASCII letters
`a`–`z`/`A`–`Z`, matching the fixed 26-letter suggestion alphabet of the
source; all other characters are case-fixed points.
-/

abbrev Str := List Char

/-- JS runtime failures that the embedded code can signal. -/
inductive JsError : Type where
  /-- `throw "Dictionary not loaded."` -/
  | notLoaded : JsError
  /-- e.g. calling a method of `null` / `undefined` -/
  | typeError : JsError
  /-- reading an undeclared identifier -/
  | referenceError : JsError
deriving DecidableEq, Repr

/-- ASCII uppercase mapping, a fixed point elsewhere (models `toUpperCase`). -/
def upChar (c : Char) : Char :=
  if c == 'a' then 'A' else if c == 'b' then 'B' else if c == 'c' then 'C'
  else if c == 'd' then 'D' else if c == 'e' then 'E' else if c == 'f' then 'F'
  else if c == 'g' then 'G' else if c == 'h' then 'H' else if c == 'i' then 'I'
  else if c == 'j' then 'J' else if c == 'k' then 'K' else if c == 'l' then 'L'
  else if c == 'm' then 'M' else if c == 'n' then 'N' else if c == 'o' then 'O'
  else if c == 'p' then 'P' else if c == 'q' then 'Q' else if c == 'r' then 'R'
  else if c == 's' then 'S' else if c == 't' then 'T' else if c == 'u' then 'U'
  else if c == 'v' then 'V' else if c == 'w' then 'W' else if c == 'x' then 'X'
  else if c == 'y' then 'Y' else if c == 'z' then 'Z' else c

/-- ASCII lowercase mapping, a fixed point elsewhere (models `toLowerCase`). -/
def downChar (c : Char) : Char :=
  if c == 'A' then 'a' else if c == 'B' then 'b' else if c == 'C' then 'c'
  else if c == 'D' then 'd' else if c == 'E' then 'e' else if c == 'F' then 'f'
  else if c == 'G' then 'g' else if c == 'H' then 'h' else if c == 'I' then 'i'
  else if c == 'J' then 'j' else if c == 'K' then 'k' else if c == 'L' then 'l'
  else if c == 'M' then 'm' else if c == 'N' then 'n' else if c == 'O' then 'o'
  else if c == 'P' then 'p' else if c == 'Q' then 'q' else if c == 'R' then 'r'
  else if c == 'S' then 's' else if c == 'T' then 't' else if c == 'U' then 'u'
  else if c == 'V' then 'v' else if c == 'W' then 'w' else if c == 'X' then 'x'
  else if c == 'Y' then 'y' else if c == 'Z' then 'z' else c

/-- `s.toUpperCase()` -/
def jsToUpper (s : Str) : Str := s.map upChar

/-- `s.toLowerCase()` -/
def jsToLower (s : Str) : Str := s.map downChar

/-- The characters matched by the regex class `\s` (ASCII part). -/
def isJsWs (c : Char) : Bool :=
  c == ' ' || c == '\t' || c == '\n' || c == '\r' || c.toNat == 11 || c.toNat == 12

/-- `s.replace(<regex for leading ws run>, '').replace(<regex for trailing ws run>, '')`:
removes the leading and the trailing whitespace run (also models `String.prototype.trim`). -/
def jsTrim (s : Str) : Str :=
  ((s.dropWhile isJsWs).reverse.dropWhile isJsWs).reverse

/-- First-found-entry lookup in an insertion-ordered association list
(models reading a string-keyed JS object property; `none` = `undefined`). -/
def assocLookup {β : Type} : List (Str × β) → Str → Option β
  | [], _ => none
  | (k, v) :: rest, key => if k == key then some v else assocLookup rest key

/-- In-place update / append of a string-keyed JS object property. -/
def assocSet {β : Type} : List (Str × β) → Str → β → List (Str × β)
  | [], k, v => [(k, v)]
  | (k0, v0) :: rest, k, v =>
      if k0 == k then (k, v) :: rest else (k0, v0) :: assocSet rest k v

/-- `s[i]` on a JS string: a 1-character string, or `undefined` out of range. -/
def jsCharAt (s : Str) (i : Nat) : Option Str :=
  (s.drop i).head?.map (fun c => [c])

/-- JS `+` between a possibly-`undefined` value and a string: `undefined`
is coerced to the string `"undefined"`. -/
def jsUndefConcat (u : Option Str) (b : Str) : Str :=
  match u with
  | none => "undefined".toList ++ b
  | some a => a ++ b

/-- Leftmost index of substring `pat` in `w` (JS `indexOf`; `some 0` for an
empty pattern). -/
def findSubAux (w pat : Str) (i : Nat) : Option Nat :=
  if pat.isPrefixOf w then some i
  else
    match w with
    | [] => none
    | _ :: t => findSubAux t pat (i + 1)

def findSub (w pat : Str) : Option Nat := findSubAux w pat 0

/-- `w.indexOf(pat) !== -1` -/
def jsContains (w pat : Str) : Bool := (findSub w pat).isSome

/-- `w.replace(pat, rep)` for a plain-string pattern: replaces the first
occurrence only. -/
def jsReplaceFirst (w pat rep : Str) : Str :=
  match findSub w pat with
  | none => w
  | some i => w.take i ++ rep ++ w.drop (i + pat.length)

/-- `Number(v)` for the strings relevant here: whitespace-trimmed; empty →
`0`; nonnegative decimal integers parse; anything else is `NaN` (`none`). -/
def jsToNumber (v : Str) : Option Nat :=
  let t := jsTrim v
  if t.isEmpty then some 0
  else if t.all (fun c => c.isDigit) then
    some (t.foldl (fun acc c => acc * 10 + (c.toNat - 48)) 0)
  else none

/-- `n >= v` where `v` is a flag value string (JS coerces it to a number;
a `NaN` comparison is false). -/
def jsNumGe (n : Nat) (v : Option Str) : Bool :=
  match v with
  | none => false
  | some str =>
    match jsToNumber str with
    | none => false
    | some m => decide (m ≤ n)

/-- `data.split(sep)` for a one-character separator, JS semantics
(`"" → [""]`, separators at the ends produce empty fields). -/
def splitChar (sep : Char) : Str → List Str
  | [] => [[]]
  | c :: rest =>
      match splitChar sep rest with
      | [] => if c == sep then [[], []] else [[c]]
      | h :: t => if c == sep then [] :: h :: t else (c :: h) :: t

/-- Strip one trailing `'\r'`, if present. -/
def stripTrailingCr (l : Str) : Str :=
  match l.reverse with
  | [] => l
  | c :: t => if c == '\r' then t.reverse else l

def mapExceptLast (f : Str → Str) : List Str → List Str
  | [] => []
  | [x] => [x]
  | x :: y :: t => f x :: mapExceptLast f (y :: t)

/-- `data.split(/\r?\n/)` -/
def splitLines (s : Str) : List Str :=
  mapExceptLast stripTrailingCr (splitChar '\n' s)

/-- `line.split('/', 2)`: the word part and, when a `'/'` is present, the
second field (everything between the first and second `'/'`). -/
def jsSplit2 (line : Str) (sep : Char) : Str × Option Str :=
  match splitChar sep line with
  | [] => ([], none)
  | [w] => (w, none)
  | w :: c :: _ => (w, some c)

-- flag-name and mode-string constants used by the engine

def flagStr : Str := "FLAG".toList
def longStr : Str := "long".toList
def numStr : Str := "num".toList
def utf8Str : Str := "UTF-8".toList
def keepcaseStr : Str := "KEEPCASE".toList
def needaffixStr : Str := "NEEDAFFIX".toList
def oicStr : Str := "ONLYINCOMPOUND".toList
def compoundminStr : Str := "COMPOUNDMIN".toList
def nosuggestStr : Str := "NOSUGGEST".toList
def azStr : Str := "abcdefghijklmnopqrstuvwxyz".toList

/-- `substr(i, 2)` chunking used by the `long` flag mode. -/
def chunk2 : Str → List Str
  | [] => []
  | [a] => [[a]]
  | a :: b :: t => [a, b] :: chunk2 t

/-- `Typo.prototype.parseRuleCodes`.  In `num` mode the source reads the
undeclared identifier `textCode` (the parameter is `textCodes`), which is a
`ReferenceError` at run time. -/
def parseRuleCodes (flags : List (Str × Str)) (textCodes : Str) :
    Except JsError (List Str) :=
  if textCodes.isEmpty then Except.ok []
  else
    match assocLookup flags flagStr with
    | none => Except.ok (textCodes.map (fun ch => [ch]))
    | some v =>
      if v == longStr then Except.ok (chunk2 textCodes)
      else if v == numStr then Except.error JsError.referenceError
      else if v == utf8Str then Except.ok (textCodes.map (fun ch => [ch]))
      else Except.ok (textCodes.map (fun ch => [ch]))

/-- A dictionary-table value: `none` models the JS `null` (word present, no
flags), `some sets` models an array of rule-code sets. -/
abbrev JValue := Option (List (List Str))

abbrev DictTable := List (Str × JValue)

/-- `typeof dictionaryTable[word] != 'object'` is FALSE both for `null` and
for an array (`typeof null` is `'object'` in JS); it is true only for an
absent key (`'undefined'`). -/
def jsTypeofIsObject (v : Option JValue) : Bool := v.isSome

/-- The `addWord` closure inside `Typo.prototype.parseDIC`.

```
if(!dictionaryTable.hasOwnProperty(word))
    dictionaryTable[word] = null;
if(rules.length > 0){
    if(!(word in dictionaryTable) || typeof dictionaryTable[word] != 'object')
        dictionaryTable[word] = [];
    dictionaryTable[word].push(rules);
}
```

After the first statement the key is always present with value `null` or an
array, so the array-initialisation guard is never taken, and
`dictionaryTable[word].push(rules)` is executed on `null` whenever the word
was not already mapped to an array — a `TypeError`. -/
def addWord (dictionaryTable : DictTable) (word : Str) (rules : List Str) :
    Except JsError DictTable :=
  let dt :=
    if (assocLookup dictionaryTable word).isNone
    then assocSet dictionaryTable word none
    else dictionaryTable
  if rules.length > 0 then
    let dt2 :=
      if (assocLookup dt word).isNone || !(jsTypeofIsObject (assocLookup dt word))
      then assocSet dt word (some [])
      else dt
    match assocLookup dt2 word with
    | some (some arr) => Except.ok (assocSet dt2 word (some (arr ++ [rules])))
    | some none => Except.error JsError.typeError
    | none => Except.error JsError.typeError
  else Except.ok dt

/-! ## `removeDicComments` (`Typo.prototype.removeDicComments`)

The source applies five regex replacements in order:
1. `/^\t.*$/mg → ''` : empty every line that begins with a tab;
2. `/^\s\s*/m → ''`  : non-global — remove only the FIRST whitespace run
   found at a line start;
3. `/\s\s*$/m → ''`  : non-global — remove only the first (leftmost, then
   greedy with backtracking) whitespace run that ends at a line end;
4. `/\n{2,}/g → '\n'`: collapse runs of newlines;
5. `/^\s\s*/ → ''` then `/\s\s*$/ → ''`: trim the whole string. -/

def stripTabLines (s : Str) : Str :=
  List.intercalate ['\n']
    ((splitChar '\n' s).map (fun l => if l.head? = some '\t' then [] else l))

def remFirstLeadWsAux : Bool → Str → Str
  | _, [] => []
  | atStart, c :: rest =>
      if atStart && isJsWs c then (c :: rest).dropWhile isJsWs
      else c :: remFirstLeadWsAux (c == '\n') rest

def remFirstLeadWs (s : Str) : Str := remFirstLeadWsAux true s

/-- Largest index `e ≥ 1` in `run` holding `'\n'` (backtracking target of
the greedy `\s\s*` before a multi-line `$`). -/
def findLastNlIdx (run : Str) : Option Nat :=
  (List.range run.length).foldl
    (fun acc i => if 1 ≤ i && run.getD i ' ' == '\n' then some i else acc) none

/-- Length matched by `/\s\s*$/m` when anchored at the head of `u`
(`none` when no match starts here). -/
def trailMatchLen (u : Str) : Option Nat :=
  let run := u.takeWhile isJsWs
  if run.length = 0 then none
  else if u.length = run.length then some run.length
  else findLastNlIdx run

def remFirstTrailWsAux : Str → Str
  | [] => []
  | c :: rest =>
      match trailMatchLen (c :: rest) with
      | some e => (c :: rest).drop e
      | none => c :: remFirstTrailWsAux rest

def collapseNlsAux : Bool → Str → Str
  | _, [] => []
  | prevNl, c :: rest =>
      if c == '\n' then
        (if prevNl then [] else ['\n']) ++ collapseNlsAux true rest
      else c :: collapseNlsAux false rest

def removeDicComments (data : Str) : Str :=
  jsTrim (collapseNlsAux false (remFirstTrailWsAux (remFirstLeadWs (stripTabLines data))))

/-! ## Affix rules and `applyRule` -/

inductive RuleKind : Type where
  | PFX : RuleKind
  | SFX : RuleKind
deriving DecidableEq, Repr

/-- One entry of a `PFX`/`SFX` block.  The compiled condition regex
(`entry.match`) and the compiled removal (`newWord.replace(entry.remove, '')`)
are embedded as their run-time behaviour: a match test and a replace step. -/
structure AffixEntry : Type where
  add : Str
  continuationClasses : List Str
  matchCond : Option (Str → Bool)
  remove : Option (Str → Str)

structure AffixRule : Type where
  type : RuleKind
  combineable : Bool
  entries : List AffixEntry

/-- `Typo.prototype.applyRule`.  The source recurses through continuation
classes with no depth bound (a cyclic class chain would not terminate);
`fuel` makes the recursion well-founded and is chosen large enough never to
run out in any theorem below. -/
def applyRule (rulesTable : List (Str × AffixRule)) :
    Nat → Str → AffixRule → List Str
  | 0, _, _ => []
  | Nat.succ fuel, word, rule =>
    rule.entries.foldl
      (fun newWords entry =>
        if (match entry.matchCond with | none => true | some f => f word) then
          let nw0 := match entry.remove with | none => word | some rm => rm word
          let newWord :=
            match rule.type with
            | RuleKind.SFX => nw0 ++ entry.add
            | RuleKind.PFX => entry.add ++ nw0
          let newWords := newWords ++ [newWord]
          entry.continuationClasses.foldl
            (fun acc code =>
              match assocLookup rulesTable code with
              | some continuationRule =>
                  acc ++ applyRule rulesTable fuel newWord continuationRule
              | none => acc)
            newWords
        else newWords)
      []

/-! ## `parseDIC` (`Typo.prototype.parseDIC`) -/

/-- The part of the engine state read by `parseDIC`. -/
structure DicEnv : Type where
  rules : List (Str × AffixRule)
  flags : List (Str × Str)

abbrev CompoundCodes := List (Str × List Str)

/-- `if(code in this.compoundRuleCodes) this.compoundRuleCodes[code].push(word)` -/
def crcPush (crc : CompoundCodes) (code word : Str) : CompoundCodes :=
  match assocLookup crc code with
  | none => crc
  | some ws => assocSet crc code (ws ++ [word])

/-- The inner `for(var k = j + 1; ...)` combine loop. -/
def combineLoop (env : DicEnv) (fuel : Nat) (rule : AffixRule) (newWord : Str)
    (later : List Str) (dt : DictTable) : Except JsError DictTable :=
  later.foldlM
    (fun dt combineCode =>
      match assocLookup env.rules combineCode with
      | some combineRule =>
          if combineRule.combineable && decide (rule.type ≠ combineRule.type) then
            (applyRule env.rules fuel newWord combineRule).foldlM
              (fun dt otherNewWord => addWord dt otherNewWord []) dt
          else pure dt
      | none => pure dt)
    dt

/-- The `for(var j = 0; ...)` loop over a word's rule codes; `later` at each
step is the list of codes after the current one. -/
def processRuleCodes (env : DicEnv) (fuel : Nat) (word : Str) :
    List Str → DictTable × CompoundCodes → Except JsError (DictTable × CompoundCodes)
  | [], st => pure st
  | code :: later, (dt, crc) => do
      let dt ←
        match assocLookup env.rules code with
        | some rule =>
            (applyRule env.rules fuel word rule).foldlM
              (fun dt newWord => do
                let dt ← addWord dt newWord []
                if rule.combineable then combineLoop env fuel rule newWord later dt
                else pure dt)
              dt
        | none => pure dt
      processRuleCodes env fuel word later (dt, crcPush crc code word)

/-- One non-header line of the `.dic` file. -/
def processLine (env : DicEnv) (fuel : Nat) (st : DictTable × CompoundCodes)
    (line : Str) : Except JsError (DictTable × CompoundCodes) := do
  let parts := jsSplit2 line '/'
  match parts.2 with
  | none => do
      let dt ← addWord st.1 (jsTrim parts.1) []
      pure (dt, st.2)
  | some codesStr => do
      let ruleCodesArray ← parseRuleCodes env.flags codesStr
      let dt1 ←
        match assocLookup env.flags needaffixStr with
        | none => addWord st.1 parts.1 ruleCodesArray
        | some na =>
            if ruleCodesArray.contains na then pure st.1
            else addWord st.1 parts.1 ruleCodesArray
      processRuleCodes env fuel parts.1 ruleCodesArray (dt1, st.2)

/-- `Typo.prototype.parseDIC`: the first line (word count) is skipped; the
compound-rule-code word lists (`this.compoundRuleCodes`, pre-seeded by the
constructor) are threaded through as `crc0`. -/
def parseDIC (env : DicEnv) (crc0 : CompoundCodes) (fuel : Nat) (data : Str) :
    Except JsError (DictTable × CompoundCodes) :=
  let cleaned := removeDicComments data
  let lines := splitLines cleaned
  (lines.drop 1).foldlM (fun st line => processLine env fuel st line) ([], crc0)

/-! ## Compiled compound rules and the word checker -/

/-- One item of a compiled compound-rule regular expression: the constructor
replaces each flag character that has an accumulated word list by an
alternation group `(w1|w2|...)` and passes other characters through as
literals. -/
inductive RItem : Type where
  | group : List Str → RItem
  | lit : Char → RItem

/-- A compiled compound-rule regex (`new RegExp(expressionText, 'i')`). -/
abbrev CompiledRule := List RItem

/-- Does the item sequence match starting exactly at the head of `s`
(consuming any number of characters, case-insensitively)? -/
def matchSeqFrom : CompiledRule → Str → Bool
  | [], _ => true
  | RItem.lit c :: rest, s =>
      match s with
      | [] => false
      | a :: s2 => (downChar a == downChar c) && matchSeqFrom rest s2
  | RItem.group ws :: rest, s =>
      ws.any (fun g =>
        (jsToLower g).isPrefixOf (jsToLower s) && matchSeqFrom rest (s.drop g.length))

/-- `word.match(regex)` truthiness for an unanchored, case-insensitive
regex: a match may start at any position. -/
def jsRegexTest (w : Str) (r : CompiledRule) : Bool :=
  match w with
  | [] => matchSeqFrom r []
  | _ :: t => matchSeqFrom r w || jsRegexTest t r

/-- A cached `{suggestions, limit}` record of the suggestion memo. -/
structure MemoEntry : Type where
  suggestions : List Str
  limit : Nat
deriving DecidableEq, Repr

/-- The engine state read by the lookup and suggestion operations (the
fields of a constructed `Typo` instance that those methods touch). -/
structure TypoState : Type where
  loaded : Bool
  dictionaryTable : DictTable
  flags : List (Str × Str)
  compoundRules : List CompiledRule
  replacementTable : List (Str × Str)
  memoized : List (Str × MemoEntry)
  alphabet : Str

/-- `Typo.prototype.hasFlag`.  With an explicit `wordFlags` argument the
table is not consulted; otherwise the word's value is flattened one level
with `Array.prototype.concat.apply([], ...)` (`undefined`/`null` both give
`[]`).  An array — even an empty one — is truthy in JS. -/
def jsConcatApply (v : Option JValue) : List Str :=
  match v with
  | none => []
  | some none => []
  | some (some sets) => sets.flatten

def hasFlag (s : TypoState) (word flag : Str) (wordFlags : Option (List Str)) :
    Except JsError Bool :=
  if s.loaded = false then Except.error JsError.notLoaded
  else
    match assocLookup s.flags flag with
    | none => Except.ok false
    | some flagValue =>
      let wf :=
        match wordFlags with
        | some arr => arr
        | none => jsConcatApply (assocLookup s.dictionaryTable word)
      Except.ok (wf.contains flagValue)

/-- The `for` loop of `checkExact` over a word's rule-code sets: valid as
soon as one set does not carry the `ONLYINCOMPOUND` flag. -/
def anyNotOIC (s : TypoState) (word : Str) :
    List (List Str) → Except JsError Bool
  | [] => Except.ok false
  | rs :: rest =>
      match hasFlag s word oicStr (some rs) with
      | Except.error e => Except.error e
      | Except.ok true => anyNotOIC s word rest
      | Except.ok false => Except.ok true

/-- The `for` loop of `checkExact` over the compiled compound rules. -/
def compoundLoop (word : Str) : List CompiledRule → Bool
  | [] => false
  | r :: rest => if jsRegexTest word r then true else compoundLoop word rest

/-- `Typo.prototype.checkExact`. -/
def checkExact (s : TypoState) (word : Str) : Except JsError Bool :=
  if s.loaded = false then Except.error JsError.notLoaded
  else
    match assocLookup s.dictionaryTable word with
    | none =>
        if (assocLookup s.flags compoundminStr).isSome
            && jsNumGe word.length (assocLookup s.flags compoundminStr) then
          Except.ok (compoundLoop word s.compoundRules)
        else Except.ok false
    | some none => Except.ok true
    | some (some ruleCodes) => anyNotOIC s word ruleCodes

/-- The all-uppercase branch of `check` (lines 482–498 of the source):
`some b` is an early `return b`, `none` falls through.  For an empty
trimmed word `trimmedWord[0]` is `undefined` and string concatenation
coerces it, so `capitalizedWord` becomes the literal string `"undefined"`. -/
def checkAllCaps (s : TypoState) (t : Str) : Except JsError (Option Bool) :=
  let capitalizedWord := jsUndefConcat (jsCharAt t 0) (jsToLower (t.drop 1))
  match hasFlag s capitalizedWord keepcaseStr none with
  | Except.error e => Except.error e
  | Except.ok true => Except.ok (some false)
  | Except.ok false =>
    match checkExact s capitalizedWord with
    | Except.error e => Except.error e
    | Except.ok true => Except.ok (some true)
    | Except.ok false =>
      match checkExact s (jsToLower t) with
      | Except.error e => Except.error e
      | Except.ok true => Except.ok (some true)
      | Except.ok false => Except.ok none

/-- The uncapitalised-variant tail of `check` (lines 500–513).  Here the
source computes `trimmedWord[0].toLowerCase()`: on an empty trimmed word
`trimmedWord[0]` is `undefined` and the method call is a `TypeError`. -/
def checkUncap (s : TypoState) (t : Str) : Except JsError Bool :=
  match jsCharAt t 0 with
  | none => Except.error JsError.typeError
  | some c0 =>
    let uncapitalized := jsToLower c0 ++ t.drop 1
    if uncapitalized == t then Except.ok false
    else
      match hasFlag s uncapitalized keepcaseStr none with
      | Except.error e => Except.error e
      | Except.ok true => Except.ok false
      | Except.ok false =>
        match checkExact s uncapitalized with
        | Except.error e => Except.error e
        | Except.ok true => Except.ok true
        | Except.ok false => Except.ok false

/-- `Typo.prototype.check`. -/
def check (s : TypoState) (aWord : Str) : Except JsError Bool :=
  if s.loaded = false then Except.error JsError.notLoaded
  else
    let trimmedWord := jsTrim aWord
    match checkExact s trimmedWord with
    | Except.error e => Except.error e
    | Except.ok true => Except.ok true
    | Except.ok false =>
      match (if jsToUpper trimmedWord == trimmedWord
             then checkAllCaps s trimmedWord
             else Except.ok none) with
      | Except.error e => Except.error e
      | Except.ok (some b) => Except.ok b
      | Except.ok none => checkUncap s trimmedWord

/-! ## The suggestion engine (`Typo.prototype.suggest`) -/

/-- The split points of a word: `(word.substring(0, i), word.substring(i))`
for `i = 0 .. word.length`. -/
def splitsOf (w : Str) : List (Str × Str) :=
  (List.range (w.length + 1)).map (fun i => (w.take i, w.drop i))

/-- The deletion loop of `edits1` (guarded by `if(s[1])`). -/
def deletesOf (w : Str) : List Str :=
  (splitsOf w).filterMap (fun s =>
    match s.2 with
    | [] => none
    | _ :: t => some (s.1 ++ t))

/-- The transposition loop of `edits1` (adjacent non-identical characters). -/
def transposesOf (w : Str) : List Str :=
  (splitsOf w).filterMap (fun s =>
    match s.2 with
    | b :: c :: t => if c ≠ b then some (s.1 ++ c :: b :: t) else none
    | _ => none)

/-- The substitution loop of `edits1` (guarded by `if(s[1])`). -/
def substitutesOf (alphabet w : Str) : List Str :=
  (splitsOf w).flatMap (fun s =>
    match s.2 with
    | [] => []
    | _ :: t => alphabet.map (fun ch => s.1 ++ ch :: t))

/-- The insertion loop of `edits1`.  NOTE two quirks reproduced from the
source: the loop body pushes into the `replaces` array (not `inserts`), and
it is guarded by `if(s[1])`, which skips the final split — so no insertion
at the end of the word is ever generated. -/
def insertsNonFinalOf (alphabet w : Str) : List Str :=
  (splitsOf w).flatMap (fun s =>
    match s.2 with
    | [] => []
    | _ :: _ => alphabet.map (fun ch => s.1 ++ ch :: s.2))

/-- The `edits1` closure of `suggest`.  `knownOnly` is accepted but never
used, exactly as in the source.  The local `inserts` array stays empty
because the insertion loop pushed into `replaces`. -/
def edits1 (alphabet : Str) (words : List Str) (knownOnly : Bool) : List Str :=
  words.foldl
    (fun rv w =>
      let deletes := deletesOf w
      let transposes := transposesOf w
      let replaces := substitutesOf alphabet w ++ insertsNonFinalOf alphabet w
      let inserts : List Str := []
      rv ++ deletes ++ transposes ++ replaces ++ inserts)
    []

/-- The `known` closure of `suggest`: keep the words accepted by `check`
(in order, first failure propagating as in JS). -/
def known (s : TypoState) : List Str → Except JsError (List Str)
  | [] => Except.ok []
  | w :: ws =>
      match check s w with
      | Except.error e => Except.error e
      | Except.ok b =>
          match known s ws with
          | Except.error e => Except.error e
          | Except.ok rest => Except.ok (if b then w :: rest else rest)

/-- `weighted_corrections`: occurrence counts keyed by candidate, in first
occurrence (insertion) order. -/
def countOccurrences (l : List Str) : List (Str × Nat) :=
  l.foldl
    (fun acc w =>
      match assocLookup acc w with
      | none => acc ++ [(w, 1)]
      | some n => assocSet acc w (n + 1))
    []

/-- Code-point lexicographic strict order on strings (the behaviour of
`localeCompare` for the plain strings involved here). -/
def strLt : Str → Str → Bool
  | [], [] => false
  | [], _ :: _ => true
  | _ :: _, [] => false
  | a :: as, b :: bs => if a < b then true else if b < a then false else strLt as bs

/-- `sorter(a, b) <= 0`: ascending weight, ties broken by
`b[0].localeCompare(a[0])` (reverse lexicographic). -/
def sorterLe (a b : Str × Nat) : Bool :=
  if a.2 < b.2 then true
  else if b.2 < a.2 then false
  else b.1 == a.1 || strLt b.1 a.1

def insertSorted (x : Str × Nat) : List (Str × Nat) → List (Str × Nat)
  | [] => [x]
  | y :: ys => if sorterLe x y then x :: y :: ys else y :: insertSorted x ys

/-- `sorted_corrections.sort(sorter)` (the comparator is a strict total
order on the distinct keys, so any correct sort yields the JS result). -/
def sortCorrections (l : List (Str × Nat)) : List (Str × Nat) :=
  l.foldr insertSorted []

/-- The capitalization scheme computed by `correct` (a dead value: the
function throws before using it). -/
def capScheme (word : Str) : Str :=
  if jsToUpper word == word then "uppercase".toList
  else if jsUndefConcat (jsCharAt word 0) [] ++ jsToLower (word.drop 1) == word
  then "capitalized".toList
  else "lowercase".toList

/-- The `correct` closure of `suggest`.  After sorting the weighted
candidates, the final ranking loop's bound reads the undeclared identifier
`sortedcorrections` (the array is named `sorted_corrections`), so execution
always ends in a `ReferenceError` once it reaches that loop; earlier, a
1-character edit candidate can be the empty string, and `check ""` inside
`known` throws a `TypeError` first (see `checkUncap`). -/
def correctFn (s : TypoState) (limit : Nat) (word : Str) :
    Except JsError (List Str) :=
  let ed1 := edits1 s.alphabet [word] false
  let ed2 := edits1 s.alphabet ed1 true
  match known s ed1 with
  | Except.error e => Except.error e
  | Except.ok k1 =>
    match known s ed2 with
    | Except.error e => Except.error e
    | Except.ok k2 =>
      let corrections := k1 ++ k2
      let weighted := countOccurrences corrections
      let _sorted := (sortCorrections weighted).reverse
      let _scheme := capScheme word
      let _ := limit
      Except.error JsError.referenceError

/-- The replacement-table loop of `suggest` (step before candidate
generation): substitute the first occurrence of each pattern; return the
first substitution that `check` accepts. -/
def replacementLoop (s : TypoState) : List (Str × Str) → Str → Except JsError (Option Str)
  | [], _ => Except.ok none
  | (pat, rep) :: rest, word =>
      if jsContains word pat then
        match check s (jsReplaceFirst word pat rep) with
        | Except.error e => Except.error e
        | Except.ok true => Except.ok (some (jsReplaceFirst word pat rep))
        | Except.ok false => replacementLoop s rest word
      else replacementLoop s rest word

/-- `limit = limit || 5` (0 models a missing/zero argument). -/
def effLimit (limit : Nat) : Nat := if limit = 0 then 5 else limit

/-- The body of `suggest` after the memoization check: valid-word early
return, replacement-table shortcut, then the full pipeline.  The pipeline
first sets `self.alphabet` to the fixed 26-letter string, and writes the
memo entry only if `correct` returns. -/
def suggestRest (s : TypoState) (word : Str) (lim : Nat) :
    Except JsError (List Str) × TypoState :=
  match check s word with
  | Except.error e => (Except.error e, s)
  | Except.ok true => (Except.ok [], s)
  | Except.ok false =>
    match replacementLoop s s.replacementTable word with
    | Except.error e => (Except.error e, s)
    | Except.ok (some correctedWord) => (Except.ok [correctedWord], s)
    | Except.ok none =>
      let s2 := { s with alphabet := azStr }
      match correctFn s2 lim word with
      | Except.error e => (Except.error e, s2)
      | Except.ok suggestions =>
          (Except.ok suggestions,
           { s2 with memoized := assocSet s2.memoized word ⟨suggestions, lim⟩ })

/-- `Typo.prototype.suggest`: the memoized result is reused only when the
requested limit is at most the cached one or fewer suggestions existed than
the cached limit. -/
def suggest (s : TypoState) (word : Str) (limit : Nat) :
    Except JsError (List Str) × TypoState :=
  if s.loaded = false then (Except.error JsError.notLoaded, s)
  else
    let lim := effLimit limit
    match assocLookup s.memoized word with
    | some entry =>
        if lim ≤ entry.limit || entry.suggestions.length < entry.limit
        then (Except.ok (entry.suggestions.take lim), s)
        else suggestRest s word lim
    | none => suggestRest s word lim

/-! ## Spec-side definitions

These restate parts of the specification in its own words, to be compared
with the embedded source functions. -/

/-- Spec wording: a rule-code set "carries the configured ONLYINCOMPOUND
flag" when the directive is configured and its value is in the set. -/
def carriesOnlyInCompound (s : TypoState) (set : List Str) : Bool :=
  match assocLookup s.flags oicStr with
  | some v => set.contains v
  | none => false

/-- Claim C4's description of `checkExact`: present with `null` → valid;
present with rule-code sets → valid iff some set does not carry
`ONLYINCOMPOUND`; absent → valid iff `COMPOUNDMIN` is configured, the word
is long enough, and some compiled compound rule matches. -/
def checkExactSpec (s : TypoState) (word : Str) : Bool :=
  match assocLookup s.dictionaryTable word with
  | some none => true
  | some (some ruleSets) =>
      ruleSets.any (fun set => !(carriesOnlyInCompound s set))
  | none =>
      ((assocLookup s.flags compoundminStr).isSome
          && jsNumGe word.length (assocLookup s.flags compoundminStr))
        && s.compoundRules.any (fun r => jsRegexTest word r)

/-- Claim C6: deletion of the character at each position. -/
def specDeletions (w : Str) : List Str :=
  (List.range w.length).map (fun i => w.take i ++ w.drop (i + 1))

/-- Claim C6: transposition of adjacent non-identical characters. -/
def specTranspositions (w : Str) : List Str :=
  (List.range w.length).filterMap (fun i =>
    match w.drop i with
    | b :: c :: t => if c ≠ b then some (w.take i ++ c :: b :: t) else none
    | _ => none)

/-- Claim C6: substitution of the character at each position by each
letter of the 26-letter alphabet. -/
def specSubstitutions (w : Str) : List Str :=
  (List.range w.length).flatMap (fun i =>
    azStr.map (fun ch => w.take i ++ ch :: w.drop (i + 1)))

/-- Claim C6 as stated: insertion of each alphabet letter at EVERY
position, including the end of the word. -/
def specInsertionsAll (w : Str) : List Str :=
  (List.range (w.length + 1)).flatMap (fun i =>
    azStr.map (fun ch => w.take i ++ ch :: w.drop i))

/-- Amended: insertions at every position EXCEPT the end of the word. -/
def specInsertionsNonFinal (w : Str) : List Str :=
  (List.range w.length).flatMap (fun i =>
    azStr.map (fun ch => w.take i ++ ch :: w.drop i))

/-- The edit-distance-1 candidate list as claim C6 states it. -/
def edits1Spec (w : Str) : List Str :=
  specDeletions w ++ specTranspositions w ++ specSubstitutions w
    ++ specInsertionsAll w

/-- The edit-distance-1 candidate list as the code actually produces it
(no end-of-word insertions). -/
def edits1SpecAmended (w : Str) : List Str :=
  specDeletions w ++ specTranspositions w ++ specSubstitutions w
    ++ specInsertionsNonFinal w

/-! ## Concrete engine states used by witnesses and counterexamples -/

/-- A loaded engine with the single flagless word `cat` and no directives. -/
def enginePlain : TypoState :=
  ⟨true, [("cat".toList, none)], [], [], [], [], []⟩

/-- A loaded engine where `cat` carries the `KEEPCASE` flag value `K`. -/
def engineKeepcase : TypoState :=
  ⟨true, [("cat".toList, some [["K".toList]])],
   [(keepcaseStr, "K".toList)], [], [], [], []⟩

/-- The spec's compound-matching scenario: `COMPOUNDMIN=3`, a compound
rule `AB` with flag `A` covering `sun` and flag `B` covering `shine`
(compiled to `(sun)(shine)` with the `i` flag). -/
def engineCompound : TypoState :=
  ⟨true,
   [("sun".toList, some [["A".toList]]), ("shine".toList, some [["B".toList]])],
   [(compoundminStr, "3".toList)],
   [[RItem.group ["sun".toList], RItem.group ["shine".toList]]],
   [], [], []⟩

/-- A loaded engine with a memoized suggestion entry for `speling`
(five cached suggestions computed with limit 5) and the valid word `ok`. -/
def engineMemo : TypoState :=
  ⟨true, [("ok".toList, none)],
   [], [], [],
   [("speling".toList,
     ⟨["spelling".toList, "apeling".toList, "bpeling".toList,
       "cpeling".toList, "dpeling".toList], 5⟩)], []⟩

/-- The dictionary text `1\ncat/A` (header line plus one flagged entry). -/
def dicCatA : Str := "1\ncat/A".toList

/-- `parseDIC` environment: no affix rules, no directives. -/
def envPlain : DicEnv := ⟨[], []⟩

/-- `parseDIC` environment: no affix rules, `NEEDAFFIX` declared with
value `A`. -/
def envNeedaffix : DicEnv := ⟨[], [(needaffixStr, "A".toList)]⟩

/-! ## Claim theorems -/

/-- Claim C1 (refuted by evaluation; the code is at fault): a word
registered with a non-empty rule-code list should end up mapped to a list
of rule-code sets, and a word first registered flagless and later with a
set should carry that set.  Instead `addWord` always raises a `TypeError`:
after `dictionaryTable[word] = null`, the guard
`!(word in dictionaryTable) || typeof dictionaryTable[word] != 'object'`
is false (`typeof null` is `'object'`), so `null.push(rules)` executes.
Both the fresh registration and the flagless-then-flagged scenario throw. -/
theorem addWord_rules_typeError :
    addWord [] ("cat".toList) ["A".toList] = Except.error JsError.typeError
    ∧ addWord [(("cat".toList : Str), (none : JValue))] ("cat".toList) ["A".toList]
        = Except.error JsError.typeError :=
  ⟨rfl, rfl⟩

/-- Claim C2 counterexample: on a loaded engine, `check` of the empty
string and of a whitespace-only string does NOT return — it raises a
`TypeError` (`trimmedWord[0].toLowerCase()` with `trimmedWord[0]`
undefined), contradicting "check(w) terminates without throwing ...
including the empty string and whitespace-only strings". -/
theorem check_empty_string_typeError :
    check enginePlain [] = Except.error JsError.typeError
    ∧ check enginePlain ("  ".toList) = Except.error JsError.typeError :=
  ⟨rfl, rfl⟩

/-- Claim C3 (refuted by evaluation; the code is at fault): `suggest` on a
misspelled word that reaches the candidate-generation pipeline never
returns a ranked list.  For 1–2 letter words an empty-string deletion
candidate reaches `check("")`, which raises a `TypeError`; for longer
words the final ranking loop's bound reads the undeclared identifier
`sortedcorrections` — a `ReferenceError`.  Here: dictionary `{cat}`,
`suggest("b", 1)`. -/
theorem suggest_pipeline_typeError :
    (suggest enginePlain ("b".toList) 1).1 = Except.error JsError.typeError :=
  rfl

/-- Claim C5 counterexample: in `engineKeepcase` the lowercase word `cat`
is `KEEPCASE`-flagged and `check "cat"` holds, yet `check "CAT"` is `true`
— the code tests `KEEPCASE` on the capitalized variant `Cat` (absent from
the table) and then accepts via `checkExact` of the lowercased form, so
the claim's "if w is KEEPCASE-flagged then check of both case variants
returns false" fails. -/
theorem keepcase_uppercase_accepted :
    check engineKeepcase ("cat".toList) = Except.ok true
    ∧ hasFlag engineKeepcase ("cat".toList) keepcaseStr none = Except.ok true
    ∧ check engineKeepcase ("CAT".toList) = Except.ok true :=
  ⟨rfl, rfl, rfl⟩

/-- Claim C6 counterexample: `ab` is an end-of-word insertion candidate of
`a` (so claim C6 puts it in the edit-distance-1 set), but the source's
insertion loop is guarded by `if(s[1])`, which skips the final split, so
`edits1` never generates it. -/
theorem edits1_missing_end_insertion :
    ("ab".toList ∈ edits1Spec ("a".toList))
    ∧ ¬ ("ab".toList ∈ edits1 azStr ["a".toList] false) := by
  constructor
  · decide
  · decide

/-- Claim C7 (second half refuted by evaluation; the code is at fault):
with `NEEDAFFIX` configured as `A`, the line `cat/A` correctly does NOT
register the bare word (the parse succeeds with an empty table); without
`NEEDAFFIX` the bare word should be registered, but `addWord` raises the
`TypeError` described at `addWord_rules_typeError`, so dictionary
construction aborts instead of registering it. -/
theorem parseDIC_needaffix_eval :
    parseDIC envNeedaffix [] 10 dicCatA = Except.ok ([], [])
    ∧ parseDIC envPlain [] 10 dicCatA = Except.error JsError.typeError :=
  ⟨rfl, rfl⟩

/-- Claim C8 (refuted by evaluation; the code is at fault): with
`FLAG num`, `parseRuleCodes` should split the code string on commas, but
the source returns `textCode.split(',')` where `textCode` is undeclared
(the parameter is `textCodes`) — a `ReferenceError`. -/
theorem parseRuleCodes_num_referenceError :
    parseRuleCodes [(flagStr, numStr)] ("101,102".toList)
      = Except.error JsError.referenceError :=
  rfl

/-! ## Helper lemmas for the suggestion-engine theorems -/

/-- `correct` never returns normally: either `known` propagates a thrown
error, or the final ranking loop's undeclared `sortedcorrections` raises a
`ReferenceError`. -/
theorem correctFn_isError (s : TypoState) (lim : Nat) (word : Str) :
    ∃ e, correctFn s lim word = Except.error e := by
  unfold correctFn
  cases h1 : known s (edits1 s.alphabet [word] false) with
  | error e => exact ⟨e, by simp [h1]⟩
  | ok k1 =>
    cases h2 : known s (edits1 s.alphabet (edits1 s.alphabet [word] false) true) with
    | error e => exact ⟨e, by simp [h1, h2]⟩
    | ok k2 => exact ⟨JsError.referenceError, by simp [h1, h2]⟩

/-- On every path, `suggestRest` either leaves the state exactly as it was
or returns an error. -/
theorem suggestRest_cases (s : TypoState) (word : Str) (lim : Nat) :
    (suggestRest s word lim).2 = s
    ∨ ((suggestRest s word lim).2 = { s with alphabet := azStr }
        ∧ ∃ e, (suggestRest s word lim).1 = Except.error e) := by
  unfold suggestRest
  cases hc : check s word with
  | error e => exact Or.inl rfl
  | ok b =>
    cases b with
    | true => exact Or.inl rfl
    | false =>
      cases hr : replacementLoop s s.replacementTable word with
      | error e => exact Or.inl rfl
      | ok o =>
        cases o with
        | some c => exact Or.inl rfl
        | none =>
          obtain ⟨e, he⟩ := correctFn_isError { s with alphabet := azStr } lim word
          right
          refine ⟨?_, e, ?_⟩ <;> simp [he]

/-- The memoization cache survives every path of `suggestRest` unchanged. -/
theorem suggestRest_memoized (s : TypoState) (word : Str) (lim : Nat) :
    ((suggestRest s word lim).2).memoized = s.memoized := by
  rcases suggestRest_cases s word lim with h | ⟨h, _⟩ <;> rw [h]

/-- If `suggestRest` returns normally, the state is untouched. -/
theorem suggestRest_ok_snd (s : TypoState) (word : Str) (lim : Nat) (l : List Str)
    (h : (suggestRest s word lim).1 = Except.ok l) :
    (suggestRest s word lim).2 = s := by
  rcases suggestRest_cases s word lim with h2 | ⟨_, e, he⟩
  · exact h2
  · rw [h] at he
    cases he

/-- If `suggest` returns normally, the state is untouched. -/
theorem suggest_ok_snd (s : TypoState) (word : Str) (limit : Nat) (l : List Str)
    (h : (suggest s word limit).1 = Except.ok l) :
    (suggest s word limit).2 = s := by
  unfold suggest at h ⊢
  cases hl : s.loaded with
  | false => simp [hl]
  | true =>
    simp only [hl] at h ⊢
    cases hm : assocLookup s.memoized word with
    | none =>
      simp only [hm] at h ⊢
      exact suggestRest_ok_snd _ _ _ _ (by simpa using h)
    | some entry =>
      simp only [hm] at h ⊢
      by_cases hif : (effLimit limit ≤ entry.limit
          || entry.suggestions.length < entry.limit) = true
      · simp [hif]
      · simp only [Bool.not_eq_true] at hif
        simp only [hif] at h ⊢
        exact suggestRest_ok_snd _ _ _ _ (by simpa using h)

/-- Claim C10: `suggest` never alters the memoization cache on the
valid-word early return or the replacement-table shortcut; a memo entry is
written only when the candidate-generation pipeline completes — which, due
to the `sortedcorrections` `ReferenceError` (see `correctFn_isError`),
never happens.  Hence the cache is unchanged on EVERY path. -/
theorem suggest_preserves_memo (s : TypoState) (word : Str) (limit : Nat) :
    ((suggest s word limit).2).memoized = s.memoized := by
  unfold suggest
  cases hl : s.loaded with
  | false => simp
  | true =>
    simp only []
    cases hm : assocLookup s.memoized word with
    | none => simp [hm, suggestRest_memoized]
    | some entry =>
      by_cases hif : (effLimit limit ≤ entry.limit
          || entry.suggestions.length < entry.limit) = true
      · simp [hm, hif]
      · simp only [Bool.not_eq_true] at hif
        simp [hm, hif, suggestRest_memoized]

/-- Claim C9: two consecutive `suggest(w, n)` calls return identical
ordered output (if the first returns a list, the state is unchanged and
the second returns the same list), and a cached entry is used only when
the (defaulted) requested limit is at most the cached limit or fewer
suggestions were cached than the cached limit — otherwise `suggest` falls
through to the uncached body `suggestRest`. -/
theorem suggest_idempotent_and_cache_guard (s : TypoState) (word : Str) (limit : Nat) :
    (∀ l, (suggest s word limit).1 = Except.ok l →
       (suggest (suggest s word limit).2 word limit).1 = Except.ok l)
    ∧ (∀ e, s.loaded = true → assocLookup s.memoized word = some e →
         (effLimit limit ≤ e.limit || e.suggestions.length < e.limit) = false →
         suggest s word limit = suggestRest s word (effLimit limit)) := by
  constructor
  · intro l h
    rw [suggest_ok_snd s word limit l h]
    exact h
  · intro e hl hm hc
    unfold suggest
    simp [hl, hm, hc]

/-- Witness for `suggest_idempotent_and_cache_guard`: on `engineMemo`,
`suggest "speling" 3` is a cache hit returning the top 3 cached
suggestions, and a second call returns the same list; `suggest "speling"
10` fails the reuse condition (10 > 5 and 5 cached suggestions = cached
limit 5) and falls through to `suggestRest`. -/
theorem suggest_idempotent_and_cache_guard_witness :
    (suggest (suggest engineMemo ("speling".toList) 3).2 ("speling".toList) 3).1
      = Except.ok ["spelling".toList, "apeling".toList, "bpeling".toList]
    ∧ suggest engineMemo ("speling".toList) 10
        = suggestRest engineMemo ("speling".toList) (effLimit 10) := by
  constructor
  · exact (suggest_idempotent_and_cache_guard engineMemo ("speling".toList) 3).1
      ["spelling".toList, "apeling".toList, "bpeling".toList] rfl
  · exact (suggest_idempotent_and_cache_guard engineMemo ("speling".toList) 10).2
      ⟨["spelling".toList, "apeling".toList, "bpeling".toList,
        "cpeling".toList, "dpeling".toList], 5⟩ rfl rfl (by decide)

/-- The `checkExact` compound loop is the `any` of the compiled rules. -/
theorem compoundLoop_eq_any (word : Str) (rs : List CompiledRule) :
    compoundLoop word rs = rs.any (fun r => jsRegexTest word r) := by
  induction rs with
  | nil => rfl
  | cons r rest ih =>
    unfold compoundLoop
    by_cases h : jsRegexTest word r <;> simp [h, ih]

/-- On a loaded engine, `hasFlag` with explicit rule codes computes
exactly the "carries the configured flag" test. -/
theorem hasFlag_explicit (s : TypoState) (word : Str) (rs : List Str)
    (hl : s.loaded = true) :
    hasFlag s word oicStr (some rs) = Except.ok (carriesOnlyInCompound s rs) := by
  unfold hasFlag carriesOnlyInCompound
  cases h : assocLookup s.flags oicStr <;> simp [hl, h]

/-- The `checkExact` rule-set loop is the `any` of the sets. -/
theorem anyNotOIC_eq_any (s : TypoState) (word : Str) (hl : s.loaded = true)
    (sets : List (List Str)) :
    anyNotOIC s word sets
      = Except.ok (sets.any (fun set => !(carriesOnlyInCompound s set))) := by
  induction sets with
  | nil => rfl
  | cons rs rest ih =>
    unfold anyNotOIC
    rw [hasFlag_explicit s word rs hl]
    cases hb : carriesOnlyInCompound s rs <;> simp [hb, ih]

/-- `checkExact` computes `checkExactSpec` (shared helper; see
`checkExact_matches_spec` for the claim-level statement). -/
theorem checkExact_eval (s : TypoState) (word : Str)
    (hl : s.loaded = true) :
    checkExact s word = Except.ok (checkExactSpec s word) := by
  unfold checkExact checkExactSpec
  cases hd : assocLookup s.dictionaryTable word with
  | none =>
    by_cases hc : ((assocLookup s.flags compoundminStr).isSome
        && jsNumGe word.length (assocLookup s.flags compoundminStr)) = true
    · simp [hl, hc, compoundLoop_eq_any]
    · simp only [Bool.not_eq_true] at hc
      simp [hl, hc]
  | some v =>
    cases v with
    | none => simp [hl]
    | some sets => simp [hl, anyNotOIC_eq_any s word hl sets]

/-- Claim C4: on every loaded engine, `checkExact` returns exactly the
Boolean described by the claim: present mapped to `null` → `true`; present
with rule-code sets → `true` iff some set does not carry the configured
`ONLYINCOMPOUND` flag; absent → `true` iff `COMPOUNDMIN` is configured,
the word's length reaches it, and some compiled compound-rule regular
expression matches. -/
theorem checkExact_matches_spec (s : TypoState) (word : Str)
    (hl : s.loaded = true) :
    checkExact s word = Except.ok (checkExactSpec s word) :=
  checkExact_eval s word hl

/-- Witness for `checkExact_matches_spec`: the spec's own compound
scenario (`COMPOUNDMIN=3`, rule `AB`, `A` covers `sun`, `B` covers
`shine`): `checkExact "sunshine"` is `true` and `checkExact "moonshine"`
is `false`. -/
theorem checkExact_matches_spec_witness :
    checkExact engineCompound ("sunshine".toList) = Except.ok true
    ∧ checkExact engineCompound ("moonshine".toList) = Except.ok false :=
  ⟨(checkExact_matches_spec engineCompound ("sunshine".toList) rfl).trans
     (congrArg Except.ok (by decide)),
   (checkExact_matches_spec engineCompound ("moonshine".toList) rfl).trans
     (congrArg Except.ok (by decide))⟩

/-- `hasFlag` never throws on a loaded engine. -/
theorem hasFlag_ok (s : TypoState) (word flag : Str) (wf : Option (List Str))
    (hl : s.loaded = true) : ∃ b, hasFlag s word flag wf = Except.ok b := by
  unfold hasFlag
  cases h : assocLookup s.flags flag <;> simp [hl, h]

/-- `checkExact` never throws on a loaded engine. -/
theorem checkExact_ok (s : TypoState) (word : Str) (hl : s.loaded = true) :
    ∃ b, checkExact s word = Except.ok b :=
  ⟨checkExactSpec s word, checkExact_eval s word hl⟩

/-- The all-uppercase branch of `check` never throws on a loaded engine
(even for an empty trimmed word, where it works on `"undefined"`). -/
theorem checkAllCaps_ok (s : TypoState) (t : Str) (hl : s.loaded = true) :
    ∃ r, checkAllCaps s t = Except.ok r := by
  obtain ⟨b1, h1⟩ :=
    hasFlag_ok s (jsUndefConcat (jsCharAt t 0) (jsToLower t.tail))
      keepcaseStr none hl
  cases b1 with
  | true => exact ⟨some false, by simp [checkAllCaps, h1]⟩
  | false =>
    obtain ⟨b2, h2⟩ :=
      checkExact_ok s (jsUndefConcat (jsCharAt t 0) (jsToLower t.tail)) hl
    cases b2 with
    | true => exact ⟨some true, by simp [checkAllCaps, h1, h2]⟩
    | false =>
      obtain ⟨b3, h3⟩ := checkExact_ok s (jsToLower t) hl
      cases b3 with
      | true => exact ⟨some true, by simp [checkAllCaps, h1, h2, h3]⟩
      | false => exact ⟨none, by simp [checkAllCaps, h1, h2, h3]⟩

/-- The uncapitalised-variant tail of `check` never throws on a loaded
engine when the trimmed word is non-empty. -/
theorem checkUncap_ok (s : TypoState) (t : Str) (hl : s.loaded = true)
    (ht : t ≠ []) : ∃ b, checkUncap s t = Except.ok b := by
  cases t with
  | nil => exact absurd rfl ht
  | cons c0 rest =>
    obtain ⟨b1, h1⟩ := hasFlag_ok s (jsToLower [c0] ++ rest) keepcaseStr none hl
    obtain ⟨b2, h2⟩ := checkExact_ok s (jsToLower [c0] ++ rest) hl
    by_cases he : jsToLower [c0] ++ rest = c0 :: rest
    · exact ⟨false, by simp [checkUncap, jsCharAt, he]⟩
    · cases b1 with
      | true => exact ⟨false, by simp [checkUncap, jsCharAt, he, h1]⟩
      | false =>
        cases b2 with
        | true => exact ⟨true, by simp [checkUncap, jsCharAt, he, h1, h2]⟩
        | false => exact ⟨false, by simp [checkUncap, jsCharAt, he, h1, h2]⟩

/-- Claim C2 (amended): on a loaded engine, `checkExact` and `hasFlag`
always return, and `check` returns for every input whose trimmed form is
non-empty (the empty/whitespace-only case throws a `TypeError`, see
`check_empty_string_typeError`); when the engine is not loaded all three
signal the distinct not-loaded error. -/
theorem lookup_totality_amended (s : TypoState) (w f : Str) :
    (s.loaded = true →
        (jsTrim w ≠ [] → ∃ b, check s w = Except.ok b)
        ∧ (∃ b, checkExact s w = Except.ok b)
        ∧ (∃ b, hasFlag s w f none = Except.ok b))
    ∧ (s.loaded = false →
        check s w = Except.error JsError.notLoaded
        ∧ checkExact s w = Except.error JsError.notLoaded
        ∧ hasFlag s w f none = Except.error JsError.notLoaded) := by
  constructor
  · intro hl
    refine ⟨?_, checkExact_ok s w hl, hasFlag_ok s w f none hl⟩
    intro ht
    obtain ⟨b0, h0⟩ := checkExact_ok s (jsTrim w) hl
    cases b0 with
    | true => exact ⟨true, by simp [check, hl, h0]⟩
    | false =>
      by_cases hu : jsToUpper (jsTrim w) = jsTrim w
      · obtain ⟨r, hr⟩ := checkAllCaps_ok s (jsTrim w) hl
        cases r with
        | some b => exact ⟨b, by simp [check, hl, h0, hu, hr]⟩
        | none =>
          obtain ⟨b, hb⟩ := checkUncap_ok s (jsTrim w) hl ht
          exact ⟨b, by simp [check, hl, h0, hu, hr, hb]⟩
      · obtain ⟨b, hb⟩ := checkUncap_ok s (jsTrim w) hl ht
        exact ⟨b, by simp [check, hl, h0, hu, hb]⟩
  · intro hl
    unfold check checkExact hasFlag
    simp [hl]

/-- Witness for `lookup_totality_amended` on `enginePlain` with the
unknown word `dog` (all three lookups return). -/
theorem lookup_totality_amended_witness :
    (∃ b, check enginePlain ("dog".toList) = Except.ok b)
    ∧ (∃ b, checkExact enginePlain ("dog".toList) = Except.ok b)
    ∧ (∃ b, hasFlag enginePlain ("dog".toList) keepcaseStr none = Except.ok b) := by
  have h := (lookup_totality_amended enginePlain ("dog".toList) keepcaseStr).1 rfl
  exact ⟨h.1 (by decide), h.2.1, h.2.2⟩

/-! ## Helper lemmas for the edit-distance-1 characterization -/

theorem filterMap_eq_map_on {α β : Type*} (l : List α) (f : α → Option β) (g : α → β)
    (h : ∀ a ∈ l, f a = some (g a)) : l.filterMap f = l.map g := by
  induction l with
  | nil => rfl
  | cons x xs ih =>
    rw [List.filterMap_cons, h x (List.mem_cons_self x xs), List.map_cons,
      ih (fun a ha => h a (List.mem_cons_of_mem x ha))]

theorem filterMap_congr_on {α β : Type*} (l : List α) (f g : α → Option β)
    (h : ∀ a ∈ l, f a = g a) : l.filterMap f = l.filterMap g := by
  induction l with
  | nil => rfl
  | cons x xs ih =>
    rw [List.filterMap_cons, List.filterMap_cons, h x (List.mem_cons_self x xs),
      ih (fun a ha => h a (List.mem_cons_of_mem x ha))]

theorem flatMap_congr_on {α β : Type*} (l : List α) (f g : α → List β)
    (h : ∀ a ∈ l, f a = g a) : l.flatMap f = l.flatMap g := by
  induction l with
  | nil => rfl
  | cons x xs ih =>
    simp only [List.flatMap_cons]
    rw [h x (List.mem_cons_self x xs),
      ih (fun a ha => h a (List.mem_cons_of_mem x ha))]

/-- Any per-split `filterMap` over `splitsOf` that vanishes on the final
split is the corresponding `filterMap` over the character positions. -/
theorem splits_filterMap_spec {β : Type*} (w : Str) (f : Str × Str → Option β)
    (g : Nat → Option β)
    (hg : ∀ i, i < w.length + 1 → f (w.take i, w.drop i) = g i)
    (hn : g w.length = none) :
    (splitsOf w).filterMap f = (List.range w.length).filterMap g := by
  unfold splitsOf
  rw [List.filterMap_map, List.range_succ, List.filterMap_append]
  have h1 : List.filterMap (f ∘ fun i => (w.take i, w.drop i)) (List.range w.length)
      = List.filterMap g (List.range w.length) := by
    apply filterMap_congr_on
    intro i hi
    rw [List.mem_range] at hi
    simpa using hg i (Nat.lt_succ_of_lt hi)
  have h2 : List.filterMap (f ∘ fun i => (w.take i, w.drop i)) [w.length] = [] := by
    have h3 := hg w.length (Nat.lt_succ_self _)
    rw [List.take_length, List.drop_length] at h3
    simp [List.filterMap_cons, h3, hn]
  rw [h1, h2, List.append_nil]

/-- The `flatMap` analogue of `splits_filterMap_spec`. -/
theorem splits_flatMap_spec {β : Type*} (w : Str) (f : Str × Str → List β)
    (g : Nat → List β)
    (hg : ∀ i, i < w.length + 1 → f (w.take i, w.drop i) = g i)
    (hn : g w.length = []) :
    (splitsOf w).flatMap f = (List.range w.length).flatMap g := by
  unfold splitsOf
  rw [List.flatMap_map, List.range_succ, List.flatMap_append]
  have h1 : (List.range w.length).flatMap (fun i => f (w.take i, w.drop i))
      = (List.range w.length).flatMap g := by
    apply flatMap_congr_on
    intro i hi
    rw [List.mem_range] at hi
    exact hg i (Nat.lt_succ_of_lt hi)
  have h2 : [w.length].flatMap (fun i => f (w.take i, w.drop i)) = [] := by
    have h3 := hg w.length (Nat.lt_succ_self _)
    rw [List.take_length, List.drop_length] at h3
    simp [h3, hn]
  rw [h1, h2, List.append_nil]

theorem deletesOf_eq_spec (w : Str) : deletesOf w = specDeletions w := by
  unfold deletesOf
  rw [splits_filterMap_spec w _
      (fun i =>
        match w.drop i with
        | [] => none
        | _ :: t => some (w.take i ++ t))
      (fun i _ => rfl) (by simp [List.drop_length])]
  unfold specDeletions
  apply filterMap_eq_map_on
  intro i hi
  rw [List.mem_range] at hi
  cases hdi : w.drop i with
  | nil => rw [List.drop_eq_nil_iff] at hdi; omega
  | cons a tl =>
    have htl : w.drop (i + 1) = tl := by
      rw [← List.tail_drop, hdi]
      rfl
    rw [htl]

theorem transposesOf_eq_spec (w : Str) : transposesOf w = specTranspositions w := by
  unfold transposesOf specTranspositions
  exact splits_filterMap_spec w _ _ (fun i _ => rfl) (by simp [List.drop_length])

theorem substitutesOf_eq_spec (w : Str) : substitutesOf azStr w = specSubstitutions w := by
  unfold substitutesOf
  rw [splits_flatMap_spec w _
      (fun i =>
        match w.drop i with
        | [] => []
        | _ :: t => azStr.map (fun ch => w.take i ++ ch :: t))
      (fun i _ => rfl) (by simp [List.drop_length])]
  unfold specSubstitutions
  apply flatMap_congr_on
  intro i hi
  rw [List.mem_range] at hi
  cases hdi : w.drop i with
  | nil => rw [List.drop_eq_nil_iff] at hdi; omega
  | cons a tl =>
    have htl : w.drop (i + 1) = tl := by
      rw [← List.tail_drop, hdi]
      rfl
    rw [htl]

theorem insertsNonFinalOf_eq_spec (w : Str) :
    insertsNonFinalOf azStr w = specInsertionsNonFinal w := by
  unfold insertsNonFinalOf
  rw [splits_flatMap_spec w _
      (fun i =>
        match w.drop i with
        | [] => []
        | _ :: _ => azStr.map (fun ch => w.take i ++ ch :: w.drop i))
      (fun i _ => rfl) (by simp [List.drop_length])]
  unfold specInsertionsNonFinal
  apply flatMap_congr_on
  intro i hi
  rw [List.mem_range] at hi
  cases hdi : w.drop i with
  | nil => rw [List.drop_eq_nil_iff] at hdi; omega
  | cons a tl => rfl

/-- Claim C6 (amended): for every word, the edit-distance-1 candidate list
generated during suggestion is exactly the deletions, adjacent
non-identical transpositions, 26-letter substitutions, and 26-letter
insertions at every position EXCEPT the end of the word (the source's
insertion loop reuses the `if(s[1])` guard, skipping the final split; see
`edits1_missing_end_insertion` for the end-insertion the claim wrongly
includes). -/
theorem edits1_characterization_amended (w : Str) :
    edits1 azStr [w] false = edits1SpecAmended w := by
  have h : edits1 azStr [w] false
      = ((deletesOf w ++ transposesOf w)
          ++ (substitutesOf azStr w ++ insertsNonFinalOf azStr w)) ++ [] := rfl
  rw [h, List.append_nil, deletesOf_eq_spec, transposesOf_eq_spec,
    substitutesOf_eq_spec, insertsNonFinalOf_eq_spec]
  unfold edits1SpecAmended
  simp [List.append_assoc]

/-- `upChar` is idempotent. -/
theorem upChar_upChar (c : Char) : upChar (upChar c) = upChar c := by
  by_cases h1 : c = 'a'
  · subst h1; rfl
  ·
    by_cases h2 : c = 'b'
    · subst h2; rfl
    ·
      by_cases h3 : c = 'c'
      · subst h3; rfl
      ·
        by_cases h4 : c = 'd'
        · subst h4; rfl
        ·
          by_cases h5 : c = 'e'
          · subst h5; rfl
          ·
            by_cases h6 : c = 'f'
            · subst h6; rfl
            ·
              by_cases h7 : c = 'g'
              · subst h7; rfl
              ·
                by_cases h8 : c = 'h'
                · subst h8; rfl
                ·
                  by_cases h9 : c = 'i'
                  · subst h9; rfl
                  ·
                    by_cases h10 : c = 'j'
                    · subst h10; rfl
                    ·
                      by_cases h11 : c = 'k'
                      · subst h11; rfl
                      ·
                        by_cases h12 : c = 'l'
                        · subst h12; rfl
                        ·
                          by_cases h13 : c = 'm'
                          · subst h13; rfl
                          ·
                            by_cases h14 : c = 'n'
                            · subst h14; rfl
                            ·
                              by_cases h15 : c = 'o'
                              · subst h15; rfl
                              ·
                                by_cases h16 : c = 'p'
                                · subst h16; rfl
                                ·
                                  by_cases h17 : c = 'q'
                                  · subst h17; rfl
                                  ·
                                    by_cases h18 : c = 'r'
                                    · subst h18; rfl
                                    ·
                                      by_cases h19 : c = 's'
                                      · subst h19; rfl
                                      ·
                                        by_cases h20 : c = 't'
                                        · subst h20; rfl
                                        ·
                                          by_cases h21 : c = 'u'
                                          · subst h21; rfl
                                          ·
                                            by_cases h22 : c = 'v'
                                            · subst h22; rfl
                                            ·
                                              by_cases h23 : c = 'w'
                                              · subst h23; rfl
                                              ·
                                                by_cases h24 : c = 'x'
                                                · subst h24; rfl
                                                ·
                                                  by_cases h25 : c = 'y'
                                                  · subst h25; rfl
                                                  ·
                                                    by_cases h26 : c = 'z'
                                                    · subst h26; rfl
                                                    ·
                                                      have hc : upChar c = c := by
                                                        unfold upChar
                                                        simp only [beq_iff_eq, h1, h2, h3, h4, h5, h6, h7, h8, h9, h10, h11, h12, h13, h14, h15, h16, h17, h18, h19, h20, h21, h22, h23, h24, h25, h26, if_false]
                                                      rw [hc]
                                                      exact hc

/-- On a character that lowercasing leaves alone, `downChar` undoes
`upChar`. -/
theorem downChar_upChar (c : Char) (h : downChar c = c) : downChar (upChar c) = c := by
  by_cases h1 : c = 'a'
  · subst h1; rfl
  ·
    by_cases h2 : c = 'b'
    · subst h2; rfl
    ·
      by_cases h3 : c = 'c'
      · subst h3; rfl
      ·
        by_cases h4 : c = 'd'
        · subst h4; rfl
        ·
          by_cases h5 : c = 'e'
          · subst h5; rfl
          ·
            by_cases h6 : c = 'f'
            · subst h6; rfl
            ·
              by_cases h7 : c = 'g'
              · subst h7; rfl
              ·
                by_cases h8 : c = 'h'
                · subst h8; rfl
                ·
                  by_cases h9 : c = 'i'
                  · subst h9; rfl
                  ·
                    by_cases h10 : c = 'j'
                    · subst h10; rfl
                    ·
                      by_cases h11 : c = 'k'
                      · subst h11; rfl
                      ·
                        by_cases h12 : c = 'l'
                        · subst h12; rfl
                        ·
                          by_cases h13 : c = 'm'
                          · subst h13; rfl
                          ·
                            by_cases h14 : c = 'n'
                            · subst h14; rfl
                            ·
                              by_cases h15 : c = 'o'
                              · subst h15; rfl
                              ·
                                by_cases h16 : c = 'p'
                                · subst h16; rfl
                                ·
                                  by_cases h17 : c = 'q'
                                  · subst h17; rfl
                                  ·
                                    by_cases h18 : c = 'r'
                                    · subst h18; rfl
                                    ·
                                      by_cases h19 : c = 's'
                                      · subst h19; rfl
                                      ·
                                        by_cases h20 : c = 't'
                                        · subst h20; rfl
                                        ·
                                          by_cases h21 : c = 'u'
                                          · subst h21; rfl
                                          ·
                                            by_cases h22 : c = 'v'
                                            · subst h22; rfl
                                            ·
                                              by_cases h23 : c = 'w'
                                              · subst h23; rfl
                                              ·
                                                by_cases h24 : c = 'x'
                                                · subst h24; rfl
                                                ·
                                                  by_cases h25 : c = 'y'
                                                  · subst h25; rfl
                                                  ·
                                                    by_cases h26 : c = 'z'
                                                    · subst h26; rfl
                                                    ·
                                                      have hc : upChar c = c := by
                                                        unfold upChar
                                                        simp only [beq_iff_eq, h1, h2, h3, h4, h5, h6, h7, h8, h9, h10, h11, h12, h13, h14, h15, h16, h17, h18, h19, h20, h21, h22, h23, h24, h25, h26, if_false]
                                                      rw [hc]
                                                      exact h

/-- `upChar` does not change whitespace-ness. -/
theorem isJsWs_upChar (c : Char) : isJsWs (upChar c) = isJsWs c := by
  by_cases h1 : c = 'a'
  · subst h1; rfl
  ·
    by_cases h2 : c = 'b'
    · subst h2; rfl
    ·
      by_cases h3 : c = 'c'
      · subst h3; rfl
      ·
        by_cases h4 : c = 'd'
        · subst h4; rfl
        ·
          by_cases h5 : c = 'e'
          · subst h5; rfl
          ·
            by_cases h6 : c = 'f'
            · subst h6; rfl
            ·
              by_cases h7 : c = 'g'
              · subst h7; rfl
              ·
                by_cases h8 : c = 'h'
                · subst h8; rfl
                ·
                  by_cases h9 : c = 'i'
                  · subst h9; rfl
                  ·
                    by_cases h10 : c = 'j'
                    · subst h10; rfl
                    ·
                      by_cases h11 : c = 'k'
                      · subst h11; rfl
                      ·
                        by_cases h12 : c = 'l'
                        · subst h12; rfl
                        ·
                          by_cases h13 : c = 'm'
                          · subst h13; rfl
                          ·
                            by_cases h14 : c = 'n'
                            · subst h14; rfl
                            ·
                              by_cases h15 : c = 'o'
                              · subst h15; rfl
                              ·
                                by_cases h16 : c = 'p'
                                · subst h16; rfl
                                ·
                                  by_cases h17 : c = 'q'
                                  · subst h17; rfl
                                  ·
                                    by_cases h18 : c = 'r'
                                    · subst h18; rfl
                                    ·
                                      by_cases h19 : c = 's'
                                      · subst h19; rfl
                                      ·
                                        by_cases h20 : c = 't'
                                        · subst h20; rfl
                                        ·
                                          by_cases h21 : c = 'u'
                                          · subst h21; rfl
                                          ·
                                            by_cases h22 : c = 'v'
                                            · subst h22; rfl
                                            ·
                                              by_cases h23 : c = 'w'
                                              · subst h23; rfl
                                              ·
                                                by_cases h24 : c = 'x'
                                                · subst h24; rfl
                                                ·
                                                  by_cases h25 : c = 'y'
                                                  · subst h25; rfl
                                                  ·
                                                    by_cases h26 : c = 'z'
                                                    · subst h26; rfl
                                                    ·
                                                      have hc : upChar c = c := by
                                                        unfold upChar
                                                        simp only [beq_iff_eq, h1, h2, h3, h4, h5, h6, h7, h8, h9, h10, h11, h12, h13, h14, h15, h16, h17, h18, h19, h20, h21, h22, h23, h24, h25, h26, if_false]
                                                      rw [hc]

/-- A map that reproduces a list fixes each member. -/
theorem map_eq_self_mem {α : Type*} (f : α → α) (l : List α)
    (h : List.map f l = l) : ∀ x ∈ l, f x = x := by
  induction l with
  | nil => intro x hx; cases hx
  | cons a t ih =>
    rw [List.map_cons, List.cons.injEq] at h
    intro x hx
    rcases List.mem_cons.mp hx with hx | hx
    · rw [hx]; exact h.1
    · exact ih h.2 x hx

/-- Lowercasing undoes uppercasing on an already-lowercase string. -/
theorem jsToLower_jsToUpper_of_fix (l : Str) (h : ∀ x ∈ l, downChar x = x) :
    jsToLower (jsToUpper l) = l := by
  induction l with
  | nil => rfl
  | cons a t ih =>
    unfold jsToLower jsToUpper at ih ⊢
    rw [List.map_cons, List.map_cons, List.cons.injEq]
    exact ⟨downChar_upChar a (h a (List.mem_cons_self a t)),
      ih (fun x hx => h x (List.mem_cons_of_mem a hx))⟩

/-- `toUpperCase` is idempotent. -/
theorem jsToUpper_idem (l : Str) : jsToUpper (jsToUpper l) = jsToUpper l := by
  unfold jsToUpper
  rw [List.map_map]
  exact List.map_congr_left (fun a _ => upChar_upChar a)

theorem dropWhile_length_le {α : Type*} (p : α → Bool) (l : List α) :
    (l.dropWhile p).length ≤ l.length := by
  induction l with
  | nil => exact Nat.le_refl _
  | cons a t ih =>
    rw [List.dropWhile_cons]
    by_cases h : p a = true
    · simp only [h, if_true]
      exact Nat.le_trans ih (Nat.le_succ _)
    · simp [h]

/-- If `dropWhile` returns a cons list unchanged, its head fails the
predicate. -/
theorem dropWhile_cons_eq_self {α : Type*} (p : α → Bool) (a : α) (t : List α)
    (h : (a :: t).dropWhile p = a :: t) : p a = false := by
  by_cases hp : p a = true
  · rw [List.dropWhile_cons, if_pos hp] at h
    have := dropWhile_length_le p t
    rw [h] at this
    simp at this
  · simpa using hp

theorem dropWhile_eq_self_of_head {α : Type*} (p : α → Bool) (a : α) (t : List α)
    (h : p a = false) : (a :: t).dropWhile p = a :: t := by
  rw [List.dropWhile_cons, h]
  simp

/-- Decompose `jsTrim l = l` into its two `dropWhile` components. -/
theorem jsTrim_parts (l : Str) (h : jsTrim l = l) :
    l.dropWhile isJsWs = l ∧ l.reverse.dropWhile isJsWs = l.reverse := by
  unfold jsTrim at h
  have hlen1 : ((l.dropWhile isJsWs).reverse.dropWhile isJsWs).length
      ≤ (l.dropWhile isJsWs).length := by
    have := dropWhile_length_le isJsWs (l.dropWhile isJsWs).reverse
    simpa using this
  have hlen2 : (l.dropWhile isJsWs).length ≤ l.length := dropWhile_length_le _ _
  have hlen0 : (((l.dropWhile isJsWs).reverse.dropWhile isJsWs).reverse).length
      = l.length := by rw [h]
  simp only [List.length_reverse] at hlen0
  have hEq : (l.dropWhile isJsWs).length = l.length := by omega
  -- a dropWhile of unchanged length is the identity
  have hfix : l.dropWhile isJsWs = l := by
    cases l with
    | nil => rfl
    | cons a t =>
      by_cases hp : isJsWs a = true
      · rw [List.dropWhile_cons, if_pos hp] at hEq
        have := dropWhile_length_le isJsWs t
        simp only [List.length_cons] at hEq
        omega
      · exact dropWhile_eq_self_of_head _ _ _ (by simpa using hp)
  refine ⟨hfix, ?_⟩
  rw [hfix] at h
  have h2 : l.reverse.dropWhile isJsWs = (l.reverse.dropWhile isJsWs).reverse.reverse :=
    (List.reverse_reverse _).symm
  rw [h2, h]

/-- Rebuild `jsTrim l = l` from its two components. -/
theorem jsTrim_of_parts (l : Str) (h1 : l.dropWhile isJsWs = l)
    (h2 : l.reverse.dropWhile isJsWs = l.reverse) : jsTrim l = l := by
  unfold jsTrim
  rw [h1, h2, List.reverse_reverse]

/-- Uppercasing preserves trimmed-ness. -/
theorem jsTrim_toUpper (l : Str) (h : jsTrim l = l) :
    jsTrim (jsToUpper l) = jsToUpper l := by
  obtain ⟨h1, h2⟩ := jsTrim_parts l h
  have hws : (isJsWs ∘ upChar) = isJsWs := funext (fun c => isJsWs_upChar c)
  apply jsTrim_of_parts
  · unfold jsToUpper
    rw [List.dropWhile_map, hws, h1]
  · unfold jsToUpper
    rw [← List.map_reverse, List.dropWhile_map, hws, h2]

/-- Capitalizing the first character preserves trimmed-ness. -/
theorem jsTrim_capFirst (c0 : Char) (rest : Str)
    (h : jsTrim (c0 :: rest) = c0 :: rest) :
    jsTrim (upChar c0 :: rest) = upChar c0 :: rest := by
  obtain ⟨h1, h2⟩ := jsTrim_parts (c0 :: rest) h
  have hc0 : isJsWs c0 = false := dropWhile_cons_eq_self _ _ _ h1
  have hc0u : isJsWs (upChar c0) = false := by rw [isJsWs_upChar]; exact hc0
  apply jsTrim_of_parts
  · exact dropWhile_eq_self_of_head _ _ _ hc0u
  · rw [List.reverse_cons] at h2 ⊢
    cases hrr : rest.reverse with
    | nil =>
      rw [List.nil_append]
      exact dropWhile_eq_self_of_head _ _ _ hc0u
    | cons a t2 =>
      rw [hrr] at h2
      rw [List.cons_append] at h2 ⊢
      have ha : isJsWs a = false := dropWhile_cons_eq_self _ _ _ h2
      exact dropWhile_eq_self_of_head _ _ _ ha

/-- Claim C5 (amended): for a lowercase, trimmed, non-empty word accepted
by `checkExact`, both case variants are accepted — except that the
`KEEPCASE` rejection is keyed to the form the code looks up, not to the
word itself: the all-uppercase variant is rejected exactly when the
CAPITALIZED form carries `KEEPCASE` (and the uppercase form is not itself
listed), and the capitalized variant is rejected exactly when the
lowercase word carries `KEEPCASE` (when the capitalized form is not
all-uppercase; otherwise the capitalized form's flag is consulted).  In
particular a `KEEPCASE` flag on the lowercase word does NOT make
`check` of the all-uppercase variant false (see
`keepcase_uppercase_accepted`). -/
theorem check_case_variants_amended (s : TypoState) (c0 : Char) (rest : Str)
    (bW bC kc kw : Bool)
    (hl : s.loaded = true)
    (hlow : jsToLower (c0 :: rest) = c0 :: rest)
    (htr : jsTrim (c0 :: rest) = c0 :: rest)
    (hw : checkExact s (c0 :: rest) = Except.ok true)
    (hbW : checkExact s (jsToUpper (c0 :: rest)) = Except.ok bW)
    (hbC : checkExact s (upChar c0 :: rest) = Except.ok bC)
    (hkc : hasFlag s (upChar c0 :: rest) keepcaseStr none = Except.ok kc)
    (hkw : hasFlag s (c0 :: rest) keepcaseStr none = Except.ok kw) :
    check s (jsToUpper (c0 :: rest)) = Except.ok (bW || !kc)
    ∧ check s (upChar c0 :: rest)
        = Except.ok (bC || (if jsToUpper (upChar c0 :: rest) = upChar c0 :: rest
                            then !kc else !kw)) := by
  have hd0 : downChar c0 = c0 := by
    have := hlow
    unfold jsToLower at this
    rw [List.map_cons, List.cons.injEq] at this
    exact this.1
  have hdr : List.map downChar rest = rest := by
    have := hlow
    unfold jsToLower at this
    rw [List.map_cons, List.cons.injEq] at this
    exact this.2
  have hdrm : ∀ x ∈ rest, downChar x = x := map_eq_self_mem _ _ hdr
  have hup : jsToUpper (c0 :: rest) = upChar c0 :: List.map upChar rest := rfl
  have hWtrim : jsTrim (jsToUpper (c0 :: rest)) = jsToUpper (c0 :: rest) :=
    jsTrim_toUpper _ htr
  have hCtrim : jsTrim (upChar c0 :: rest) = upChar c0 :: rest :=
    jsTrim_capFirst c0 rest htr
  have hWupper : jsToUpper (jsToUpper (c0 :: rest)) = jsToUpper (c0 :: rest) :=
    jsToUpper_idem _
  have hlowrest_up : jsToLower (List.map upChar rest) = rest := by
    have h := jsToLower_jsToUpper_of_fix rest hdrm
    unfold jsToUpper at h
    exact h
  have hlowW : jsToLower (jsToUpper (c0 :: rest)) = c0 :: rest :=
    jsToLower_jsToUpper_of_fix (c0 :: rest)
      (map_eq_self_mem _ _ (by unfold jsToLower at hlow; exact hlow))
  have part_a : check s (jsToUpper (c0 :: rest)) = Except.ok (bW || !kc) := by
    cases bW with
    | true => simp [check, hl, hWtrim, hbW]
    | false =>
      have hcap : jsUndefConcat (jsCharAt (jsToUpper (c0 :: rest)) 0)
          (jsToLower (List.tail (jsToUpper (c0 :: rest)))) = upChar c0 :: rest := by
        rw [hup]
        simp [jsCharAt, jsUndefConcat, hlowrest_up]
      cases kc with
      | true => simp [check, checkAllCaps, hl, hWtrim, hbW, hWupper, hcap, hkc]
      | false =>
        cases bC with
        | true => simp [check, checkAllCaps, hl, hWtrim, hbW, hWupper, hcap, hkc, hbC]
        | false =>
          simp [check, checkAllCaps, hl, hWtrim, hbW, hWupper, hcap, hkc, hbC, hlowW, hw]
  have part_b : check s (upChar c0 :: rest)
      = Except.ok (bC || (if jsToUpper (upChar c0 :: rest) = upChar c0 :: rest
                          then !kc else !kw)) := by
    cases bC with
    | true => simp [check, hl, hCtrim, hbC]
    | false =>
      have hcapC : jsUndefConcat (jsCharAt (upChar c0 :: rest) 0)
          (jsToLower rest) = upChar c0 :: rest := by
        simp [jsCharAt, jsUndefConcat, jsToLower, hdr]
      have hlowC : jsToLower (upChar c0 :: rest) = c0 :: rest := by
        unfold jsToLower
        rw [List.map_cons, downChar_upChar c0 hd0, hdr]
      by_cases hu : jsToUpper (upChar c0 :: rest) = upChar c0 :: rest
      · cases kc with
        | true => simp [check, checkAllCaps, hl, hCtrim, hbC, hu, hcapC, hkc]
        | false =>
          simp [check, checkAllCaps, hl, hCtrim, hbC, hu, hcapC, hkc, hlowC, hw]
      · have hne : ¬ (c0 = upChar c0) := by
          intro heq
          rw [← heq] at hbC
          rw [hw] at hbC
          simp at hbC
        have hlowC1 : jsToLower [upChar c0] = [c0] := by
          unfold jsToLower
          rw [List.map_singleton, downChar_upChar c0 hd0]
        cases kw with
        | true =>
          simp [check, checkUncap, hl, hCtrim, hbC, hu, jsCharAt, hlowC1, hne, hkw]
        | false =>
          simp [check, checkUncap, hl, hCtrim, hbC, hu, jsCharAt, hlowC1, hne, hkw, hw]
  exact ⟨part_a, part_b⟩

/-- Witness for `check_case_variants_amended`: in `enginePlain`, `cat` is
a lowercase flagless dictionary word and both `check "CAT"` and
`check "Cat"` come out `true`. -/
theorem check_case_variants_amended_witness :
    check enginePlain (jsToUpper ("cat".toList)) = Except.ok true
    ∧ check enginePlain (upChar 'c' :: "at".toList) = Except.ok true := by
  have h := check_case_variants_amended enginePlain 'c' ("at".toList)
      false false false false rfl rfl rfl rfl rfl rfl rfl rfl
  exact ⟨h.1, h.2⟩
